import Mathlib

/-!
A shallow embedding of the intent-matching chatbot core of the
Github Repo Analyzer (the code of `chatbot.js`: context and cache,
intent table, response generation, and the intent handlers), together
with theorems settling the specification claims about it.

Modelling conventions:
* the external collaborator `fetchFileContent` is an oracle
  `fetch : String → Except Unit String` (`Except.error` = the promise
  rejected with some `Error`);
* the external syntax highlighter `hljs.highlightAuto(...).value` is an
  oracle `hl : String → String`;
* JavaScript strings are Lean `String`s; `toLowerCase`, regexes with the
  `i` flag and `\s` / `\w` classes are modelled at the ASCII level
  (`Char.toLower`, explicit character-class predicates), which matches the
  source on all ASCII input;
* a rejected promise / thrown exception is `Except.error ()`; the error
  payload is irrelevant to every claim;
* the `fileContentCache` `Map` is an association list in insertion order
  (the source inserts a key only when it is absent).
-/

set_option maxRecDepth 8192

namespace RepoAnalyzer

/-- One entry of the flat repository listing (`chatbotRepoStructure`):
a GitHub tree item with its `path` and content `url`. -/
structure FileEntry where
  path : String
  url : String
deriving DecidableEq

/-- The fields of `chatbotRepoData` that the chatbot reads.
`description` and `license` are `Option` because the GitHub API returns
`null` for them; `license` holds `license.name`. -/
structure RepoData where
  name : String
  description : Option String
  owner_login : String
  stargazers_count : Nat
  forks_count : Nat
  license : Option String
deriving DecidableEq

/-- The `fileContentCache` map, in insertion order. -/
abbrev Cache := List (String × String)

/-- Lookup `fileContentCache.get` / `.has`: the value stored for `url`, if any. -/
def lookupCache (cache : Cache) (url : String) : Option String :=
  (cache.find? (fun e => e.1 == url)).map (fun e => e.2)

/-- Embeds `getFileContent(url)`: consult the cache; on a miss call the external
`fetchFileContent` (the oracle `fetch`), store the result and return it; on
a hit return the stored value with no external call.  The `Nat` component
counts how many external fetch invocations the call performed. -/
def getFileContent (fetch : String → Except Unit String) (cache : Cache) (url : String) :
    Except Unit String × Cache × Nat :=
  match lookupCache cache url with
  | some v => (Except.ok v, cache, 0)
  | none =>
    match fetch url with
    | Except.ok content => (Except.ok content, cache ++ [(url, content)], 1)
    | Except.error e => (Except.error e, cache, 1)

/-- Runs `n` successive calls of `getFileContent` with the same `url`, threading
the cache: the list of per-call results, the final cache, and the total
number of external fetch invocations. -/
def repeatGet (fetch : String → Except Unit String) (cache : Cache) (url : String) :
    Nat → List (Except Unit String) × Cache × Nat
  | 0 => ([], cache, 0)
  | n + 1 =>
    let r := getFileContent fetch cache url
    let rest := repeatGet fetch r.2.1 url n
    (r.1 :: rest.1, rest.2.1, r.2.2 + rest.2.2)

/-! ### String helpers (ASCII models of the JavaScript string operations) -/

/-- Models `message.toLowerCase()`, as a character list. -/
def lowerStr (s : String) : List Char := s.data.map Char.toLower

/-- Models `hay.includes(needle)` on character lists. -/
def containsSub (needle : List Char) : List Char → Bool
  | [] => needle.isEmpty
  | l@(_ :: rest) => needle.isPrefixOf l || containsSub needle rest

/-- Models `hay.includes(needle)` for strings, after `hay` was lowercased. -/
def containsStr (hay : String) (needle : String) : Bool :=
  containsSub needle.data (lowerStr hay)

/-! ### The File Locator: `findFileInStructure` -/

/-- Test `f.path.toLowerCase() === fileName.toLowerCase()`. -/
def exactMatch (fileName : String) (f : FileEntry) : Bool :=
  lowerStr f.path == lowerStr fileName

/-- Test `f.path.toLowerCase().endsWith('/' + fileName.toLowerCase())`. -/
def suffixMatch (fileName : String) (f : FileEntry) : Bool :=
  ('/' :: lowerStr fileName).isSuffixOf (lowerStr f.path)

/-- Embeds `findFileInStructure(fileName)`: first an exact (case-insensitive)
full-path match over the listing, then a `'/' + fileName` suffix match;
`none` when neither matches. -/
def findFileInStructure (files : List FileEntry) (fileName : String) : Option FileEntry :=
  match files.find? (exactMatch fileName) with
  | some f => some f
  | none => files.find? (suffixMatch fileName)

/-! ### JSON values and `JSON.parse`

`JSON.parse` is the JavaScript builtin used by `handleListDependencies`;
it is embedded as a recursive-descent parser over the character list.
Numbers keep their source lexeme: no claim depends on numeric values. -/

inductive Json where
  | null
  | bool (b : Bool)
  | num (lit : String)
  | str (s : String)
  | arr (elems : List Json)
  | obj (fields : List (String × Json))

/-- Insertion into a JavaScript object: an existing key keeps its position
and gets the new value, a new key is appended. -/
def objInsert (o : List (String × Json)) (k : String) (v : Json) : List (String × Json) :=
  if o.any (fun e => e.1 == k) then o.map (fun e => if e.1 == k then (k, v) else e)
  else o ++ [(k, v)]

/-- JSON whitespace. -/
def wsCharJson (c : Char) : Bool := c = ' ' || c = '\t' || c = '\n' || c = '\r'

def skipWs : List Char → List Char
  | [] => []
  | c :: rest => if wsCharJson c then skipWs rest else c :: rest

def hexVal (c : Char) : Option Nat :=
  if '0' ≤ c ∧ c ≤ '9' then some (c.toNat - '0'.toNat)
  else if 'a' ≤ c ∧ c ≤ 'f' then some (c.toNat - 'a'.toNat + 10)
  else if 'A' ≤ c ∧ c ≤ 'F' then some (c.toNat - 'A'.toNat + 10)
  else none

def parseHex4 : List Char → Option (Nat × List Char)
  | c1 :: c2 :: c3 :: c4 :: rest =>
    match hexVal c1, hexVal c2, hexVal c3, hexVal c4 with
    | some h1, some h2, some h3, some h4 => some (((h1 * 16 + h2) * 16 + h3) * 16 + h4, rest)
    | _, _, _, _ => none
  | _ => none

/-- The body of a JSON string after the opening quote: returns the decoded
characters and the input after the closing quote. -/
def parseStringBody : Nat → List Char → Option (List Char × List Char)
  | 0, _ => none
  | _, [] => none
  | fuel + 1, c :: rest =>
    if c = '"' then some ([], rest)
    else if c = '\\' then
      match rest with
      | [] => none
      | e :: rest2 =>
        let deco : Option (Char × List Char) :=
          if e = '"' then some ('"', rest2)
          else if e = '\\' then some ('\\', rest2)
          else if e = '/' then some ('/', rest2)
          else if e = 'b' then some ('\x08', rest2)
          else if e = 'f' then some ('\x0c', rest2)
          else if e = 'n' then some ('\n', rest2)
          else if e = 'r' then some ('\r', rest2)
          else if e = 't' then some ('\t', rest2)
          else if e = 'u' then
            match parseHex4 rest2 with
            | some (n, rest3) => some (Char.ofNat n, rest3)
            | none => none
          else none
        match deco with
        | some (ch, rest3) =>
          match parseStringBody fuel rest3 with
          | some (s, r) => some (ch :: s, r)
          | none => none
        | none => none
    else if c.toNat < 0x20 then none
    else
      match parseStringBody fuel rest with
      | some (s, r) => some (c :: s, r)
      | none => none

def takeDigits : List Char → List Char × List Char
  | [] => ([], [])
  | c :: rest =>
    if c.isDigit then
      let (ds, r) := takeDigits rest
      (c :: ds, r)
    else ([], c :: rest)

/-- Optional fraction part `('.' [0-9]+)?`. -/
def parseFrac : List Char → Option (List Char × List Char)
  | '.' :: rest =>
    match rest with
    | c :: r =>
      if c.isDigit then
        let (ds, r2) := takeDigits r
        some ('.' :: c :: ds, r2)
      else none
    | [] => none
  | l => some ([], l)

/-- Optional exponent part `([eE] [+-]? [0-9]+)?`. -/
def parseExp : List Char → Option (List Char × List Char)
  | [] => some ([], [])
  | c :: rest =>
    if c = 'e' || c = 'E' then
      let (sign, r1) :=
        match rest with
        | s :: r => if s = '+' || s = '-' then ([s], r) else (([] : List Char), s :: r)
        | [] => ([], [])
      match r1 with
      | d :: r2 =>
        if d.isDigit then
          let (ds, r3) := takeDigits r2
          some (c :: sign ++ d :: ds, r3)
        else none
      | [] => none
    else some ([], c :: rest)

/-- A JSON number `-? ('0' | [1-9][0-9]*) frac? exp?`, kept as a lexeme. -/
def parseNumber (l : List Char) : Option (String × List Char) :=
  let (neg, l1) := match l with | '-' :: r => (['-'], r) | _ => (([] : List Char), l)
  match l1 with
  | [] => none
  | c :: r =>
    let intPart : Option (List Char × List Char) :=
      if c = '0' then some (['0'], r)
      else if c.isDigit then
        let (ds, r2) := takeDigits r
        some (c :: ds, r2)
      else none
    match intPart with
    | some (ip, r2) =>
      match parseFrac r2 with
      | some (fp, r3) =>
        match parseExp r3 with
        | some (ep, r4) => some (String.mk (neg ++ ip ++ fp ++ ep), r4)
        | none => none
      | none => none
    | none => none

mutual

def parseValue : Nat → List Char → Option (Json × List Char)
  | 0, _ => none
  | fuel + 1, l =>
    match skipWs l with
    | [] => none
    | c :: rest =>
      if c = '{' then
        match skipWs rest with
        | '}' :: r => some (Json.obj [], r)
        | r => parseMembers fuel r []
      else if c = '[' then
        match skipWs rest with
        | ']' :: r => some (Json.arr [], r)
        | r => parseElems fuel r []
      else if c = '"' then
        match parseStringBody (rest.length + 1) rest with
        | some (s, r) => some (Json.str (String.mk s), r)
        | none => none
      else if c = 't' then
        if rest.take 3 = ['r', 'u', 'e'] then some (Json.bool true, rest.drop 3) else none
      else if c = 'f' then
        if rest.take 4 = ['a', 'l', 's', 'e'] then some (Json.bool false, rest.drop 4) else none
      else if c = 'n' then
        if rest.take 3 = ['u', 'l', 'l'] then some (Json.null, rest.drop 3) else none
      else
        match parseNumber (c :: rest) with
        | some (lit, r) => some (Json.num lit, r)
        | none => none

def parseMembers : Nat → List Char → List (String × Json) → Option (Json × List Char)
  | 0, _, _ => none
  | fuel + 1, l, acc =>
    match skipWs l with
    | '"' :: rest =>
      match parseStringBody (rest.length + 1) rest with
      | some (k, r) =>
        match skipWs r with
        | ':' :: r2 =>
          match parseValue fuel r2 with
          | some (v, r3) =>
            let acc2 := objInsert acc (String.mk k) v
            match skipWs r3 with
            | ',' :: r4 => parseMembers fuel r4 acc2
            | '}' :: r4 => some (Json.obj acc2, r4)
            | _ => none
          | none => none
        | _ => none
      | none => none
    | _ => none

def parseElems : Nat → List Char → List Json → Option (Json × List Char)
  | 0, _, _ => none
  | fuel + 1, l, acc =>
    match parseValue fuel l with
    | some (v, r) =>
      match skipWs r with
      | ',' :: r2 => parseElems fuel r2 (acc ++ [v])
      | ']' :: r2 => some (Json.arr (acc ++ [v]), r2)
      | _ => none
    | none => none

end

/-- Embeds `JSON.parse(s)`: a complete value with only trailing whitespace left;
`Except.error ()` models the thrown `SyntaxError`. -/
def parseJson (s : String) : Except Unit Json :=
  match parseValue (s.length + 1) s.data with
  | some (v, rest) => if skipWs rest = [] then Except.ok v else Except.error ()
  | none => Except.error ()

/-! ### `handleListDependencies` -/

/-- Property access `data.k` (`none` models `undefined`). -/
def getField : Json → String → Option Json
  | Json.obj fields, k => (fields.find? (fun f => f.1 == k)).map (fun f => f.2)
  | _, _ => none

/-- First value stored under key `k`. -/
def objGet (o : List (String × Json)) (k : String) : Option Json :=
  (o.find? (fun e => e.1 == k)).map (fun e => e.2)

/-- Last value stored under key `k` (the value sequential insertion
leaves behind). -/
def objGetLast : List (String × Json) → String → Option Json
  | [], _ => none
  | e :: t, k =>
    match objGetLast t k with
    | some v => some v
    | none => if e.1 == k then some e.2 else none

/-- Index-keyed entries, as enumerating an array or string produces them. -/
def enumIdx (vs : List Json) : List (String × Json) :=
  ((List.range vs.length).zip vs).map (fun p => (toString p.1, p.2))

/-- The own enumerable entries spread by `{...x}`: an object spreads its
fields, a string or array its index-keyed elements, anything else nothing. -/
def spreadEntries : Option Json → List (String × Json)
  | none => []
  | some Json.null => []
  | some (Json.bool _) => []
  | some (Json.num _) => []
  | some (Json.str s) => enumIdx (s.data.map (fun c => Json.str (String.mk [c])))
  | some (Json.arr vs) => enumIdx vs
  | some (Json.obj fields) => fields

/-- Spread merge: insert every entry of `a` then of `b` into a fresh
object. -/
def spreadMerge (a b : List (String × Json)) : List (String × Json) :=
  (a ++ b).foldl (fun acc e => objInsert acc e.1 e.2) []

/-- Reads `data.dependencies` / `data.devDependencies` and merges by spread.
Accessing a property of `null` throws, which the handler catches. -/
def dependenciesOf : Json → Except Unit (List (String × Json))
  | Json.null => Except.error ()
  | data =>
    Except.ok (spreadMerge (spreadEntries (getField data "dependencies"))
      (spreadEntries (getField data "devDependencies")))

/-- Runs `JSON.parse` followed by the dependency merge: everything inside the
handler try block that can throw. -/
def dependenciesOfContent (content : String) : Except Unit (List (String × Json)) :=
  match parseJson content with
  | Except.ok data => dependenciesOf data
  | Except.error e => Except.error e

mutual

/-- Template-literal interpolation `${v}` of a JSON value. -/
def jsToString : Json → String
  | Json.null => "null"
  | Json.bool true => "true"
  | Json.bool false => "false"
  | Json.num lit => lit
  | Json.str s => s
  | Json.arr vs => String.intercalate "," (jsArrParts vs)
  | Json.obj _ => "[object Object]"

/-- Array elements under `toString`: `null` becomes the empty string. -/
def jsArrParts : List Json → List String
  | [] => []
  | Json.null :: rest => "" :: jsArrParts rest
  | v :: rest => jsToString v :: jsArrParts rest

end

def renderDepItem (e : String × Json) : String :=
  "<li><strong>" ++ e.1 ++ "</strong>: " ++ jsToString e.2 ++ "</li>"

/-- The dependency listing the handler builds, one `<li>` per merged
dependency in merge order. -/
def renderDeps (deps : List (String × Json)) : String :=
  "Here are the dependencies from `package.json`:<ul class=\"chat-list\">" ++
    (String.join (deps.map renderDepItem) ++ "</ul>")

def msgNoManifest : String := "I couldn\x27t find a `package.json` file to check for dependencies."

def msgUnreadable : String := "I found a `package.json`, but I had trouble reading it."

def msgNoDeps : String := "`package.json` was found, but it lists no dependencies."

/-- Embeds `handleListDependencies()`: locate `package.json`, fetch and parse it,
merge `dependencies` and `devDependencies`, and render; the `catch` turns
any fetch / parse / property-access error into `msgUnreadable`. -/
def handleListDependencies (fetch : String → Except Unit String) (files : List FileEntry)
    (cache : Cache) : Except Unit String × Cache :=
  match findFileInStructure files "package.json" with
  | some packageJson =>
    match getFileContent fetch cache packageJson.url with
    | (Except.ok content, cache2, _) =>
      match dependenciesOfContent content with
      | Except.ok dependencies =>
        if dependencies.length > 0 then (Except.ok (renderDeps dependencies), cache2)
        else (Except.ok msgNoDeps, cache2)
      | Except.error _ => (Except.ok msgUnreadable, cache2)
    | (Except.error _, cache2, _) => (Except.ok msgUnreadable, cache2)
  | none => (Except.ok msgNoManifest, cache)

/-! ### `handleExplainCode`

The heuristic regex built from the identifier is
`(function\s+NAME|const\s+NAME\s*=\s*\(.*\)\s*=>|let\s+NAME\s*=\s*\(.*\)\s*=>)`
with the `s` flag, so `.` also matches newlines.  A regex *test* is an
existence question, embedded below as scanning combinators over the
character list (the identifier comes from a `\w+` capture, so it is
interpolated literally). -/

/-- JavaScript `\w`. -/
def wordChar (c : Char) : Bool :=
  ('a' ≤ c && c ≤ 'z') || ('A' ≤ c && c ≤ 'Z') || ('0' ≤ c && c ≤ '9') || c = '_'

/-- JavaScript `\s` (ASCII part). -/
def jsWs (c : Char) : Bool :=
  c = ' ' || c = '\t' || c = '\n' || c = '\r' || c = '\x0b' || c = '\x0c'

/-- A literal, then the continuation. -/
def litThen (lit : List Char) (p : List Char → Bool) (l : List Char) : Bool :=
  lit.isPrefixOf l && p (l.drop lit.length)

/-- Matches `\s+` then the continuation. -/
def wsPlusThen (p : List Char → Bool) : List Char → Bool
  | [] => false
  | c :: rest => jsWs c && (p rest || wsPlusThen p rest)

/-- Matches `\s*` then the continuation. -/
def wsStarThen (p : List Char → Bool) : List Char → Bool
  | [] => p []
  | c :: rest => p (c :: rest) || (jsWs c && wsStarThen p rest)

/-- Matches `.*` under the `s` flag, then the continuation: some suffix matches. -/
def anyThen (p : List Char → Bool) : List Char → Bool
  | [] => p []
  | l@(_ :: rest) => p l || anyThen p rest

/-- Matches `\s*=\s*\(.*\)\s*=>`, the arrow-function tail of the heuristic. -/
def arrowTail : List Char → Bool :=
  wsStarThen (litThen ['=']
    (wsStarThen (litThen ['(']
      (anyThen (litThen [')']
        (wsStarThen (litThen ['=', '>'] (fun _ => true))))))))

/-- The heuristic alternation anchored at the current position. -/
def declAt (name : List Char) (l : List Char) : Bool :=
  litThen "function".data (wsPlusThen (litThen name (fun _ => true))) l ||
  litThen "const".data (wsPlusThen (litThen name arrowTail)) l ||
  litThen "let".data (wsPlusThen (litThen name arrowTail)) l

/-- The heuristic matches at some position. -/
def regexTestAux (name : List Char) : List Char → Bool
  | [] => declAt name []
  | l@(_ :: rest) => declAt name l || regexTestAux name rest

/-- Embeds `functionRegex.test(content)` (also what `line.match(functionRegex)`
tests on a single line). -/
def functionRegexTest (name content : String) : Bool :=
  regexTestAux name.data content.data

/-- Models `content.split('\n')`, on character lists. -/
def splitLines : List Char → List (List Char)
  | [] => [[]]
  | c :: rest =>
    if c = '\n' then [] :: splitLines rest
    else
      match splitLines rest with
      | l :: ls => (c :: l) :: ls
      | [] => [[c]]

/-- Models `lines.join('\n')`, on character lists. -/
def joinLines : List (List Char) → List Char
  | [] => []
  | [l] => l
  | l :: ls => l ++ '\n' :: joinLines ls

/-- Models `lines.findIndex(...)`, with `none` for `-1`. -/
def findIdxL {α : Type} (p : α → Bool) : List α → Option Nat
  | [] => none
  | a :: rest => if p a then some 0 else (findIdxL p rest).map (fun i => i + 1)

/-- The heuristic applied to each line of `content`: the index of the first
line that matches on its own. -/
def firstDeclLine (name content : String) : Option Nat :=
  findIdxL (fun line => regexTestAux name.data line) (splitLines content.data)

/-- Models `lines.slice(startLine, startLine + 15).join('\n')`. -/
def snippetAt (content : String) (startLine : Nat) : String :=
  String.mk (joinLines (((splitLines content.data).drop startLine).take 15))

/-- Some single line of `content` matches the heuristic on its own. -/
def hasDeclLine (name content : String) : Bool :=
  (firstDeclLine name content).isSome

/-- The snippet the handler extracts: 15 lines from the first matching
line (empty when no line matches; the handler never uses that case). -/
def snippet15 (name content : String) : String :=
  match firstDeclLine name content with
  | some i => snippetAt content i
  | none => ""

def notFoundExplain (name : String) : String :=
  "I couldn\x27t find a function named `" ++ name ++ "` in any of the JavaScript files."

/-- The snippet response: highlighted snippet plus the view-full-file
button carrying the file locator and path (whitespace as in the template
literal of the source). -/
def renderExplain (hl : String → String) (name : String) (f : FileEntry) (snippet : String) :
    String :=
  "I found a function named `" ++ name ++ "` in `" ++ f.path ++
    "`. Here\x27s a snippet:\n                <pre><code class=\"hljs\">" ++ hl snippet ++
    "</code></pre>\n                <button class=\"chat-action-btn\" data-action=\"view-file\" data-url=\"" ++
    f.url ++ "\" data-path=\"" ++ f.path ++ "\">View the full file</button>"

/-- The `for (const file of relevantFiles)` loop of `handleExplainCode`:
fetch each file through the cache; on the first whose content passes the
regex test and that has an individually matching line, answer with the
15-line snippet; a fetch error escapes the handler. -/
def explainLoop (fetch : String → Except Unit String) (hl : String → String) (name : String) :
    List FileEntry → Cache → Except Unit String × Cache
  | [], cache => (Except.ok (notFoundExplain name), cache)
  | f :: rest, cache =>
    match getFileContent fetch cache f.url with
    | (Except.ok content, cache2, _) =>
      if functionRegexTest name content then
        match firstDeclLine name content with
        | some startLine =>
          (Except.ok (renderExplain hl name f (snippetAt content startLine)), cache2)
        | none => explainLoop fetch hl name rest cache2
      else explainLoop fetch hl name rest cache2
    | (Except.error e, cache2, _) => (Except.error e, cache2)

/-- Models `file.path.endsWith('.js')`, at the character level. -/
def isJsFile (f : FileEntry) : Bool := (".js".data).isSuffixOf f.path.data

/-- Embeds `handleExplainCode`: filter the listing to `.js` files and scan them in
listing order. -/
def handleExplainCode (fetch : String → Except Unit String) (hl : String → String)
    (files : List FileEntry) (cache : Cache) (functionName : String) :
    Except Unit String × Cache :=
  explainLoop fetch hl functionName (files.filter isJsFile) cache

/-! ### `handleGetMetadata` and `handleFindFile` -/

def metadataFallback : String := "I couldn\x27t find that specific piece of information."

/-- Embeds `handleGetMetadata(match, message)`: keyword checks on the lowercased
message, in source order, with a fallback. -/
def handleGetMetadata (rd : RepoData) (message : String) : String :=
  if containsStr message "owner" || containsStr message "author" then
    "The owner of this repository is **" ++ rd.owner_login ++ "**."
  else if containsStr message "stars" then
    "It has **" ++ toString rd.stargazers_count ++ "** stars."
  else if containsStr message "forks" then
    "It has **" ++ toString rd.forks_count ++ "** forks."
  else if containsStr message "license" then
    "The repository is under the **" ++
      (match rd.license with | some l => l | none => "N/A") ++ "** license."
  else metadataFallback

/-- Embeds `handleFindFile(match)`: delegate to the File Locator. -/
def handleFindFile (files : List FileEntry) (fileName : String) : String :=
  match findFileInStructure files fileName with
  | some file =>
    "I found the file `" ++ file.path ++
      "`.<br><button class=\"chat-action-btn\" data-action=\"view-file\" data-url=\"" ++
      file.url ++ "\" data-path=\"" ++ file.path ++ "\">Click here to view it</button>"
  | none => "Sorry, I couldn\x27t find a file named `" ++ fileName ++ "`."

/-! ### The intent table and pattern matching

Each pattern is embedded as `String → Option (List String)`: `none` when
the regex does not match, otherwise the list of its capture groups
(`""` models an `undefined` optional group).  `matchGroup caps i` is
`match[i]`.  The scans below implement the leftmost-match, declared
alternation order and greedy-quantifier semantics of the `i`-flagged
source regexes at the ASCII level. -/

abbrev Pattern := String → Option (List String)

/-- Capture access `match[i]` for `i ≥ 1`. -/
def matchGroup (caps : List String) (i : Nat) : String := caps.getD (i - 1) ""

/-- Case-insensitive prefix test of a lowercase literal. -/
def ciStarts (pat : List Char) (l : List Char) : Bool :=
  pat.isPrefixOf (l.map Char.toLower)

/-- Leftmost match: try the anchored matcher at each position in turn. -/
def scanPattern (patAt : List Char → Option (List String)) : List Char → Option (List String)
  | [] => patAt []
  | l@(_ :: rest) =>
    match patAt l with
    | some caps => some caps
    | none => scanPattern patAt rest

/-- Pattern `/^h(i|ello)$/i`. -/
def patGreet : Pattern := fun m =>
  let l := String.mk (lowerStr m)
  if l = "hi" || l = "hello" then some [m.drop 1] else none

def aboutKeywords : List String := ["what is this", "about", "describe", "purpose"]

/-- Pattern `/^(what is this|about|describe|purpose)/i`. -/
def patAbout : Pattern := fun m =>
  match aboutKeywords.find? (fun k => ciStarts k.data m.data) with
  | some k => some [m.take k.length]
  | none => none

def findVerbs : List String := ["find", "show me", "where is", "open", "get"]

/-- Class `[\w\.\-\/]` of the find_file token. -/
def tokenChar (c : Char) : Bool := wordChar c || c = '.' || c = '-' || c = '/'

/-- Pattern `/(find|show me|where is|open|get) (the )?([\w\.\-\/]+)/i` anchored at
the current position; groups `[verb, optional-the, token]`. -/
def findFileAt (l : List Char) : Option (List String) :=
  match findVerbs.find? (fun v => ciStarts v.data l) with
  | some v =>
    match l.drop v.length with
    | ' ' :: r2 =>
      let verbRaw := String.mk (l.take v.length)
      let afterThe := r2.drop 4
      if ciStarts "the ".data r2 &&
          (match afterThe with | c :: _ => tokenChar c | [] => false) then
        some [verbRaw, String.mk (r2.take 4), String.mk (afterThe.takeWhile tokenChar)]
      else
        match r2 with
        | c :: _ =>
          if tokenChar c then some [verbRaw, "", String.mk (r2.takeWhile tokenChar)] else none
        | [] => none
    | _ => none
  | none => none

def patFindFile : Pattern := fun m => scanPattern findFileAt m.data

def depKeywords : List String := ["dependencies", "packages", "libraries", "libs"]

/-- Pattern `/(dependencies|packages|libraries|libs)/i` anchored here. -/
def depsAt (l : List Char) : Option (List String) :=
  match depKeywords.find? (fun k => ciStarts k.data l) with
  | some k => some [String.mk (l.take k.length)]
  | none => none

def patListDeps : Pattern := fun m => scanPattern depsAt m.data

def explainLeads : List String := ["what does", "explain", "how does"]

def explainTails : List String := ["function", "method", "do"]

/-- A backtick or single quote, the `[`']` class. -/
def quoteChar (c : Char) : Bool := c = Char.ofNat 96 || c = Char.ofNat 39

/-- Pattern `/(what does|explain|how does) [`']?(\w+)[`']? (function|method|do)/i`
anchored here; groups `[lead, identifier, keyword]`. -/
def explainAt (l : List Char) : Option (List String) :=
  match explainLeads.find? (fun k => ciStarts k.data l) with
  | some lead =>
    match l.drop lead.length with
    | ' ' :: r2 =>
      let leadRaw := String.mk (l.take lead.length)
      let r3 := match r2 with
        | c :: rr => if quoteChar c then rr else r2
        | [] => r2
      let ident := r3.takeWhile wordChar
      if ident.isEmpty then none
      else
        let r4 := r3.drop ident.length
        let r5 := match r4 with
          | c :: rr => if quoteChar c then rr else r4
          | [] => r4
        match r5 with
        | ' ' :: r6 =>
          match explainTails.find? (fun k => ciStarts k.data r6) with
          | some kw => some [leadRaw, String.mk ident, String.mk (r6.take kw.length)]
          | none => none
        | _ => none
    | _ => none
  | none => none

def patExplain : Pattern := fun m => scanPattern explainAt m.data

def metaKeywords : List String := ["owner", "author", "stars", "forks", "license"]

/-- Pattern `/(owner|author|stars|forks|license)/i` anchored here. -/
def metaAt (l : List Char) : Option (List String) :=
  match metaKeywords.find? (fun k => ciStarts k.data l) with
  | some k => some [String.mk (l.take k.length)]
  | none => none

def patGetMetadata : Pattern := fun m => scanPattern metaAt m.data

/-- Pattern `/^help$/i`. -/
def patHelpExact : Pattern := fun m =>
  if String.mk (lowerStr m) = "help" then some [] else none

/-- Pattern `/what can you do/i`. -/
def patHelpContains : Pattern := fun m =>
  if containsStr m "what can you do" then some [] else none

inductive IntentName where
  | greet
  | about
  | find_file
  | list_dependencies
  | explain_code
  | get_metadata
  | help
deriving DecidableEq

/-- The static `intents` table, in declared order. -/
def intents : List (IntentName × List Pattern) :=
  [(IntentName.greet, [patGreet]),
   (IntentName.about, [patAbout]),
   (IntentName.find_file, [patFindFile]),
   (IntentName.list_dependencies, [patListDeps]),
   (IntentName.explain_code, [patExplain]),
   (IntentName.get_metadata, [patGetMetadata]),
   (IntentName.help, [patHelpExact, patHelpContains])]

/-- The inner `for (const pattern of intent.patterns)` loop: first pattern
that matches wins. -/
def firstMatch (msg : String) : List Pattern → Option (List String)
  | [] => none
  | p :: ps =>
    match p msg with
    | some caps => some caps
    | none => firstMatch msg ps

/-- The outer `for (const intent of intents)` loop: first rule with a
matching pattern wins. -/
def selectRule (msg : String) : List (IntentName × List Pattern) → Option (IntentName × List String)
  | [] => none
  | r :: rs =>
    match firstMatch msg r.2 with
    | some caps => some (r.1, caps)
    | none => selectRule msg rs

/-! ### `generateChatbotResponse` and the static handlers -/

def msgNoContext : String := "Please analyze a repository first."

def msgFallback : String :=
  "I\x27m not sure how to answer that. Try asking \x27help\x27 to see what I can do."

def greetMsg (rd : RepoData) : String :=
  "Hello! How can I help you with the **" ++ rd.name ++ "** repository?"

/-- The `about` handler; `description || 'No description provided.'` is
falsy both for `null` and for the empty string. -/
def aboutMsg (rd : RepoData) : String :=
  "This is the **" ++ rd.name ++ "** repository. The description says: \"" ++
    (match rd.description with
     | some d => if d = "" then "No description provided." else d
     | none => "No description provided.") ++ "\""

def helpMsg : String :=
  "I can help you understand this repository. Try asking me things like:\n        <ul>\n            <li>\"What is this project about?\"</li>\n            <li>\"Show me the package.json file\"</li>\n            <li>\"What are the dependencies?\"</li>\n            <li>\"What does the \x27handleAnalysis\x27 function do?\"</li>\n            <li>\"Who is the owner?\"</li>\n        </ul>"

/-- The full chatbot state: `chatbotRepoData`, `chatbotRepoStructure` and
the content cache (`chatbotLanguages` is never read by any handler). -/
structure ChatbotState where
  repoData : Option RepoData
  repoStructure : List FileEntry
  cache : Cache

/-- Embeds `generateChatbotResponse(message)`: the no-context guard, then the
first-match dispatch over the intent table, then the fixed fallback. -/
def generateChatbotResponse (fetch : String → Except Unit String) (hl : String → String)
    (st : ChatbotState) (message : String) : Except Unit String × Cache :=
  match st.repoData with
  | none => (Except.ok msgNoContext, st.cache)
  | some rd =>
    match selectRule message intents with
    | some (IntentName.greet, _) => (Except.ok (greetMsg rd), st.cache)
    | some (IntentName.about, _) => (Except.ok (aboutMsg rd), st.cache)
    | some (IntentName.find_file, caps) =>
      (Except.ok (handleFindFile st.repoStructure (matchGroup caps 3)), st.cache)
    | some (IntentName.list_dependencies, _) =>
      handleListDependencies fetch st.repoStructure st.cache
    | some (IntentName.explain_code, caps) =>
      handleExplainCode fetch hl st.repoStructure st.cache (matchGroup caps 2)
    | some (IntentName.get_metadata, _) => (Except.ok (handleGetMetadata rd message), st.cache)
    | some (IntentName.help, _) => (Except.ok helpMsg, st.cache)
    | none => (Except.ok msgFallback, st.cache)

/-! ### Concrete fixtures used by witnesses and counterexamples -/

/-- A fetch oracle that always succeeds with the same body. -/
def demoFetchBody : String → Except Unit String := fun _ => Except.ok "body"

/-- A fetch oracle that always fails. -/
def demoFetchFail : String → Except Unit String := fun _ => Except.error ()

/-- A fetch oracle that always succeeds with `"w"`. -/
def demoFetchW : String → Except Unit String := fun _ => Except.ok "w"

/-- The identity highlighter. -/
def hlId : String → String := fun s => s

/-- A state in which no repository has been analyzed yet. -/
def stNoCtx : ChatbotState := ⟨none, [⟨"package.json", "up"⟩], []⟩

/-- Listing for the File Locator example: only a nested `package.json`. -/
def demoFilesNested : List FileEntry := [⟨"a.txt", "u0"⟩, ⟨"src/package.json", "u1"⟩]

/-- The spec scenario listing for list_dependencies. -/
def demoFilesDeps : List FileEntry := [⟨"src/app.js", "us"⟩, ⟨"README.md", "ur"⟩, ⟨"package.json", "up"⟩]

/-- The spec scenario manifest with exactly one runtime dependency. -/
def demoManifest : String := "\x7b\"dependencies\":\x7b\"left-pad\":\"^1.0.0\"\x7d\x7d"

/-- Serves `demoManifest` for the `package.json` locator. -/
def demoFetchDeps : String → Except Unit String :=
  fun u => if u = "up" then Except.ok demoManifest else Except.error ()

/-- A one-file listing whose only script matches the explain heuristic
across a line boundary but on no single line. -/
def demoFilesSplit : List FileEntry := [⟨"a.js", "u1"⟩]

/-- Content for `demoFilesSplit`: `function` and the identifier separated
by a newline. -/
def demoContSplit : String → String := fun _ => "function\nfoo"

def demoFetchSplit : String → Except Unit String := fun u => Except.ok (demoContSplit u)

/-- Contents for the positive explain scenario: the second script file
declares `foo` on its second line. -/
def demoContExplain : String → String :=
  fun u => if u = "um" then "nothing here" else "x\nfunction foo() \x7b return 1; \x7d\ny\nz"

def demoFetchExplain : String → Except Unit String := fun u => Except.ok (demoContExplain u)

/-- Listing for the positive explain scenario (one non-script entry). -/
def demoFilesExplain : List FileEntry := [⟨"m.js", "um"⟩, ⟨"notes.txt", "ut"⟩, ⟨"k.js", "uk"⟩]

/-- Manifest in which `lodash` appears in both dependency maps with
different version specifiers. -/
def demoManifestOverride : String :=
  "\x7b\"dependencies\":\x7b\"lodash\":\"^4.0.0\"\x7d,\"devDependencies\":\x7b\"lodash\":\"^5.0.0\"\x7d\x7d"

def demoFetchOverride : String → Except Unit String :=
  fun u => if u = "up" then Except.ok demoManifestOverride else Except.error ()

/-- Listing with a root `package.json` only. -/
def demoFilesPkg : List FileEntry := [⟨"package.json", "up"⟩]

/-- Repository metadata fixture. -/
def demoRepoData : RepoData := ⟨"demo-repo", none, "alice", 3, 2, none⟩

/-- Listing with a nested suffix candidate before the exact match. -/
def demoFilesBoth : List FileEntry := [⟨"src/package.json", "u1"⟩, ⟨"package.json", "u2"⟩]

/-! ## Theorems -/

/-! ### Cache lemmas -/

theorem lookupCache_cons (e : String × String) (t : Cache) (url : String) :
    lookupCache (e :: t) url = if e.1 == url then some e.2 else lookupCache t url := by
  by_cases h : e.1 == url <;> simp [lookupCache, List.find?, h]

theorem lookupCache_append_self (cache : Cache) (url v : String)
    (h : lookupCache cache url = none) :
    lookupCache (cache ++ [(url, v)]) url = some v := by
  induction cache with
  | nil => simp [lookupCache, List.find?]
  | cons e t ih =>
    rw [List.cons_append, lookupCache_cons]
    rw [lookupCache_cons] at h
    by_cases he : e.1 == url
    · simp [he] at h
    · simp only [he, if_false] at h ⊢
      exact ih h

theorem repeatGet_hit (fetch : String → Except Unit String) (cache : Cache) (url v : String)
    (h : lookupCache cache url = some v) :
    ∀ n, repeatGet fetch cache url n = (List.replicate n (Except.ok v), cache, 0) := by
  intro n
  induction n with
  | zero => simp [repeatGet]
  | succ m ih => simp [repeatGet, getFileContent, h, ih, List.replicate_succ]

/-- C5.  Within one session, repeated successful `getFileContent` calls
with one locator perform the external fetch exactly once: the first call
fetches and stores the decoded body, every later call returns the identical
stored value with no external call. -/
theorem contentCache_fetch_once (fetch : String → Except Unit String) (cache : Cache)
    (url v : String) (n : Nat) (hmiss : lookupCache cache url = none)
    (hok : fetch url = Except.ok v) (hn : 0 < n) :
    repeatGet fetch cache url n = (List.replicate n (Except.ok v), cache ++ [(url, v)], 1) := by
  obtain ⟨m, rfl⟩ : ∃ m, n = m + 1 := ⟨n - 1, (Nat.succ_pred_eq_of_pos hn).symm⟩
  have hstore := lookupCache_append_self cache url v hmiss
  simp [repeatGet, getFileContent, hmiss, hok, repeatGet_hit fetch _ url v hstore m,
    List.replicate_succ]

/-- Witness for C5 at a concrete session: three calls, one fetch. -/
theorem contentCache_fetch_once_witness :
    repeatGet demoFetchBody [] "u" 3 = (List.replicate 3 (Except.ok "body"), [("u", "body")], 1) :=
  contentCache_fetch_once demoFetchBody [] "u" "body" 3 rfl rfl (by decide)

/-- C6.  A failing fetch propagates the error and leaves the cache
unchanged; the next call with the same locator fetches externally again
(and can then succeed), so failures are never memoized. -/
theorem contentCache_failure_uncached (fetch : String → Except Unit String) (cache : Cache)
    (url : String) (hmiss : lookupCache cache url = none)
    (hfail : fetch url = Except.error ()) :
    getFileContent fetch cache url = (Except.error (), cache, 1) ∧
    ∀ fetch2 w, fetch2 url = Except.ok w →
      getFileContent fetch2 cache url = (Except.ok w, cache ++ [(url, w)], 1) := by
  constructor
  · simp [getFileContent, hmiss, hfail]
  · intro fetch2 w h2
    simp [getFileContent, hmiss, h2]

/-- Witness for C6: a concrete failure is not cached and a retry succeeds. -/
theorem contentCache_failure_uncached_witness :
    getFileContent demoFetchFail [] "u" = (Except.error (), [], 1) ∧
    getFileContent demoFetchW [] "u" = (Except.ok "w", [("u", "w")], 1) :=
  ⟨(contentCache_failure_uncached demoFetchFail [] "u" rfl rfl).1,
   (contentCache_failure_uncached demoFetchFail [] "u" rfl rfl).2 demoFetchW "w" rfl⟩

/-! ### C2: the NoActiveContext guard -/

/-- C2.  Before any repository has been analyzed, every message gets the
single fixed "analyze a repository first" answer, with the cache untouched
and no handler or lookup involved — uniformly over all messages, so also
for `help`. -/
theorem no_context_guard (fetch : String → Except Unit String) (hl : String → String)
    (st : ChatbotState) (message : String) (h : st.repoData = none) :
    generateChatbotResponse fetch hl st message = (Except.ok msgNoContext, st.cache) := by
  simp [generateChatbotResponse, h]

/-- Witness for C2: the guard fires on the message `"help"` even though
`"help"` matches the help rule. -/
theorem no_context_guard_witness :
    generateChatbotResponse demoFetchFail hlId stNoCtx "help" = (Except.ok msgNoContext, []) ∧
    (selectRule "help" intents).map Prod.fst = some IntentName.help :=
  ⟨no_context_guard demoFetchFail hlId stNoCtx "help" rfl, rfl⟩

/-! ### C3: first-match-wins dispatch -/

theorem firstMatch_eq_some_iff (msg : String) (ps : List Pattern) (caps : List String) :
    firstMatch msg ps = some caps ↔
      ∃ j p, ps.get? j = some p ∧ p msg = some caps ∧
        ∀ j', j' < j → ∀ q, ps.get? j' = some q → q msg = none := by
  induction ps with
  | nil => simp [firstMatch]
  | cons p ps ih =>
    cases hp : p msg with
    | some c =>
      simp only [firstMatch, hp]
      constructor
      · intro h
        exact ⟨0, p, rfl, by rw [hp, h], fun j' hj' => absurd hj' (Nat.not_lt_zero j')⟩
      · rintro ⟨j, q, hget, hq, hprev⟩
        cases j with
        | zero =>
          rw [List.get?_cons_zero] at hget
          cases hget
          rw [hp] at hq
          exact hq
        | succ k =>
          have := hprev 0 (Nat.succ_pos k) p List.get?_cons_zero
          rw [hp] at this
          exact absurd this (by simp)
    | none =>
      simp only [firstMatch, hp]
      rw [ih]
      constructor
      · rintro ⟨j, q, hget, hq, hprev⟩
        refine ⟨j + 1, q, by simpa using hget, hq, ?_⟩
        intro j' hj' r hr
        cases j' with
        | zero =>
          rw [List.get?_cons_zero] at hr
          cases hr
          exact hp
        | succ k =>
          exact hprev k (Nat.lt_of_succ_lt_succ hj') r (by simpa using hr)
      · rintro ⟨j, q, hget, hq, hprev⟩
        cases j with
        | zero =>
          rw [List.get?_cons_zero] at hget
          cases hget
          rw [hp] at hq
          exact absurd hq (by simp)
        | succ k =>
          refine ⟨k, q, by simpa using hget, hq, ?_⟩
          intro j' hj' r hr
          exact hprev (j' + 1) (Nat.succ_lt_succ hj') r (by simpa using hr)

theorem selectRule_eq_some_iff (msg : String) (l : List (IntentName × List Pattern))
    (n : IntentName) (caps : List String) :
    selectRule msg l = some (n, caps) ↔
      ∃ i r, l.get? i = some r ∧ r.1 = n ∧ firstMatch msg r.2 = some caps ∧
        ∀ i', i' < i → ∀ r', l.get? i' = some r' → firstMatch msg r'.2 = none := by
  induction l with
  | nil => simp [selectRule]
  | cons r rs ih =>
    cases hr : firstMatch msg r.2 with
    | some c =>
      simp only [selectRule, hr]
      constructor
      · intro h
        have hn : r.1 = n ∧ c = caps := by
          have := h
          injection this with h2
          exact ⟨congrArg Prod.fst h2, congrArg Prod.snd h2⟩
        exact ⟨0, r, rfl, hn.1, by rw [hr, hn.2], fun i' hi' => absurd hi' (Nat.not_lt_zero i')⟩
      · rintro ⟨i, r', hget, hfst, hq, hprev⟩
        cases i with
        | zero =>
          rw [List.get?_cons_zero] at hget
          cases hget
          rw [hr] at hq
          cases hq
          rw [hfst]
        | succ k =>
          have := hprev 0 (Nat.succ_pos k) r List.get?_cons_zero
          rw [hr] at this
          exact absurd this (by simp)
    | none =>
      simp only [selectRule, hr]
      rw [ih]
      constructor
      · rintro ⟨i, r', hget, hfst, hq, hprev⟩
        refine ⟨i + 1, r', by simpa using hget, hfst, hq, ?_⟩
        intro i' hi' s hs
        cases i' with
        | zero =>
          rw [List.get?_cons_zero] at hs
          cases hs
          exact hr
        | succ k =>
          exact hprev k (Nat.lt_of_succ_lt_succ hi') s (by simpa using hs)
      · rintro ⟨i, r', hget, hfst, hq, hprev⟩
        cases i with
        | zero =>
          rw [List.get?_cons_zero] at hget
          cases hget
          rw [hr] at hq
          exact absurd hq (by simp)
        | succ k =>
          refine ⟨k, r', by simpa using hget, hfst, hq, ?_⟩
          intro i' hi' s hs
          exact hprev (i' + 1) (Nat.succ_lt_succ hi') s (by simpa using hs)

/-- C3.  The table is declared in the order greet, about, find_file,
list_dependencies, explain_code, get_metadata, help; a rule is selected iff
one of its patterns matches and no pattern of any earlier rule matches
(first-match-wins over rules), and within a rule the first matching pattern
in declared order supplies the capture groups; the adversarial message
`"about the owner"` matches both the about and the get_metadata rule and is
dispatched to the earlier about rule. -/
theorem intent_rule_order_first_match_wins :
    intents.map Prod.fst =
      [IntentName.greet, IntentName.about, IntentName.find_file, IntentName.list_dependencies,
       IntentName.explain_code, IntentName.get_metadata, IntentName.help] ∧
    (∀ msg n caps, selectRule msg intents = some (n, caps) ↔
      ∃ i r, intents.get? i = some r ∧ r.1 = n ∧ firstMatch msg r.2 = some caps ∧
        ∀ i', i' < i → ∀ r', intents.get? i' = some r' → firstMatch msg r'.2 = none) ∧
    (∀ msg (ps : List Pattern) caps, firstMatch msg ps = some caps ↔
      ∃ j p, ps.get? j = some p ∧ p msg = some caps ∧
        ∀ j', j' < j → ∀ q, ps.get? j' = some q → q msg = none) ∧
    (selectRule "about the owner" intents = some (IntentName.about, ["about"]) ∧
      (patGetMetadata "about the owner").isSome = true ∧
      (patAbout "about the owner").isSome = true) :=
  ⟨rfl, fun msg n caps => selectRule_eq_some_iff msg intents n caps,
    fun msg ps caps => firstMatch_eq_some_iff msg ps caps, rfl, rfl, rfl⟩

/-- Witness for C3: the adversarial overlap instance, by the theorem. -/
theorem intent_rule_order_first_match_wins_witness :
    selectRule "about the owner" intents = some (IntentName.about, ["about"]) :=
  intent_rule_order_first_match_wins.2.2.2.1

/-! ### C4: the File Locator -/

theorem find?_eq_some_iff_first {α : Type} (p : α → Bool) (l : List α) (a : α) :
    l.find? p = some a ↔
      ∃ i, l.get? i = some a ∧ p a = true ∧
        ∀ j, j < i → ∀ b, l.get? j = some b → p b = false := by
  induction l with
  | nil => simp
  | cons c t ih =>
    cases hc : p c with
    | true =>
      rw [List.find?_cons_of_pos _ hc]
      constructor
      · intro h
        injection h with h
        subst h
        exact ⟨0, rfl, hc, fun j hj => absurd hj (Nat.not_lt_zero j)⟩
      · rintro ⟨i, hget, hpa, hprev⟩
        cases i with
        | zero =>
          rw [List.get?_cons_zero] at hget
          exact hget
        | succ k =>
          have := hprev 0 (Nat.succ_pos k) c List.get?_cons_zero
          rw [hc] at this
          exact absurd this (by simp)
    | false =>
      rw [List.find?_cons_of_neg _ (by simp [hc])]
      rw [ih]
      constructor
      · rintro ⟨i, hget, hpa, hprev⟩
        refine ⟨i + 1, by simpa using hget, hpa, ?_⟩
        intro j hj b hb
        cases j with
        | zero =>
          rw [List.get?_cons_zero] at hb
          cases hb
          exact hc
        | succ k =>
          exact hprev k (Nat.lt_of_succ_lt_succ hj) b (by simpa using hb)
      · rintro ⟨i, hget, hpa, hprev⟩
        cases i with
        | zero =>
          rw [List.get?_cons_zero] at hget
          cases hget
          rw [hc] at hpa
          exact absurd hpa (by simp)
        | succ k =>
          refine ⟨k, by simpa using hget, hpa, ?_⟩
          intro j hj b hb
          exact hprev (j + 1) (Nat.succ_lt_succ hj) b (by simpa using hb)

theorem find?_eq_none_iff_all {α : Type} (p : α → Bool) (l : List α) :
    l.find? p = none ↔ ∀ a ∈ l, p a = false := by
  rw [List.find?_eq_none]
  constructor
  · intro h a ha
    exact Bool.not_eq_true _ |>.mp (h a ha)
  · intro h a ha
    rw [h a ha]
    simp

/-- C4.  `findFileInStructure` returns the first entry (in listing
order) whose full path matches the fragment case-insensitively; only when
no entry matches exactly, the first entry whose path ends with
`'/' + fragment` case-insensitively; and `none` — never an exception —
when neither rule matches any entry.  An exact match anywhere beats a
suffix match of any other entry, even an earlier one. -/
theorem find_file_locator_spec (files : List FileEntry) (name : String) :
    (∀ f, findFileInStructure files name = some f ↔
      (∃ i, files.get? i = some f ∧ exactMatch name f = true ∧
        ∀ j, j < i → ∀ g, files.get? j = some g → exactMatch name g = false) ∨
      ((∀ g ∈ files, exactMatch name g = false) ∧
        ∃ i, files.get? i = some f ∧ suffixMatch name f = true ∧
          ∀ j, j < i → ∀ g, files.get? j = some g → suffixMatch name g = false)) ∧
    (findFileInStructure files name = none ↔
      ∀ g ∈ files, exactMatch name g = false ∧ suffixMatch name g = false) := by
  cases hx : files.find? (exactMatch name) with
  | some f0 =>
    have hmem := List.mem_of_find?_eq_some hx
    have hp := List.find?_some hx
    constructor
    · intro f
      simp only [findFileInStructure, hx]
      constructor
      · intro h
        injection h with h
        subst h
        exact Or.inl ((find?_eq_some_iff_first (exactMatch name) files f0).mp hx)
      · rintro (h1 | ⟨hall, _⟩)
        · have := (find?_eq_some_iff_first (exactMatch name) files f).mpr h1
          rw [hx] at this
          exact this
        · rw [hall f0 hmem] at hp
          exact absurd hp (by simp)
    · simp only [findFileInStructure, hx]
      constructor
      · intro h
        exact absurd h (by simp)
      · intro hall
        rw [(hall f0 hmem).1] at hp
        exact absurd hp (by simp)
  | none =>
    have hallex : ∀ g ∈ files, exactMatch name g = false :=
      (find?_eq_none_iff_all (exactMatch name) files).mp hx
    constructor
    · intro f
      simp only [findFileInStructure, hx]
      rw [find?_eq_some_iff_first (suffixMatch name) files f]
      constructor
      · intro h
        exact Or.inr ⟨hallex, h⟩
      · rintro (⟨i, hget, hpa, _⟩ | ⟨_, h⟩)
        · have hfmem : f ∈ files := List.get?_mem hget
          rw [hallex f hfmem] at hpa
          exact absurd hpa (by simp)
        · exact h
    · simp only [findFileInStructure, hx]
      rw [find?_eq_none_iff_all (suffixMatch name) files]
      constructor
      · intro h g hg
        exact ⟨hallex g hg, h g hg⟩
      · intro h g hg
        exact (h g hg).2

/-- Witness for C4: a case-insensitive suffix hit (`"PACKAGE.JSON"` finds
`src/package.json`) and exact-match precedence over an earlier suffix
candidate. -/
theorem find_file_locator_spec_witness :
    findFileInStructure demoFilesNested "PACKAGE.JSON" = some ⟨"src/package.json", "u1"⟩ ∧
    findFileInStructure demoFilesBoth "package.json" = some ⟨"package.json", "u2"⟩ := by
  constructor
  · refine ((find_file_locator_spec demoFilesNested "PACKAGE.JSON").1 _).mpr (Or.inr ?_)
    refine ⟨by decide, 1, rfl, by decide, ?_⟩
    intro j hj g hg
    have hj0 : j = 0 := Nat.lt_one_iff.mp hj
    subst hj0
    simp only [demoFilesNested, List.get?_cons_zero, Option.some.injEq] at hg
    subst hg
    decide
  · refine ((find_file_locator_spec demoFilesBoth "package.json").1 _).mpr (Or.inl ?_)
    refine ⟨1, rfl, by decide, ?_⟩
    intro j hj g hg
    have hj0 : j = 0 := Nat.lt_one_iff.mp hj
    subst hj0
    simp only [demoFilesBoth, List.get?_cons_zero, Option.some.injEq] at hg
    subst hg
    decide

/-! ### C10: the get_metadata fallback is unreachable under its trigger -/

theorem containsSub_of_isPrefixOf (needle l : List Char) (h : needle.isPrefixOf l = true) :
    containsSub needle l = true := by
  cases l with
  | nil =>
    cases needle with
    | nil => rfl
    | cons a as => simp [List.isPrefixOf] at h
  | cons c rest => simp [containsSub, h]

theorem containsSub_cons (needle : List Char) (c : Char) (l : List Char)
    (h : containsSub needle l = true) : containsSub needle (c :: l) = true := by
  simp [containsSub, h]

theorem metaAt_scan_aux (l : List Char) (caps : List String)
    (h : scanPattern metaAt l = some caps) :
    (containsSub "owner".data (l.map Char.toLower) ||
     containsSub "author".data (l.map Char.toLower) ||
     containsSub "stars".data (l.map Char.toLower) ||
     containsSub "forks".data (l.map Char.toLower) ||
     containsSub "license".data (l.map Char.toLower)) = true := by
  induction l with
  | nil =>
    rw [show scanPattern metaAt [] = none from rfl] at h
    exact absurd h (by simp)
  | cons c rest ih =>
    simp only [scanPattern] at h
    cases hm : metaAt (c :: rest) with
    | some kcaps =>
      unfold metaAt at hm
      cases hfind : metaKeywords.find? (fun k => ciStarts k.data (c :: rest)) with
      | none =>
        rw [hfind] at hm
        exact absurd hm (by simp)
      | some k =>
        have hmem := List.mem_of_find?_eq_some hfind
        have hpre := List.find?_some hfind
        have hcs : containsSub k.data ((c :: rest).map Char.toLower) = true :=
          containsSub_of_isPrefixOf _ _ hpre
        simp only [metaKeywords, List.mem_cons, List.not_mem_nil, or_false] at hmem
        simp only [Bool.or_eq_true]
        rcases hmem with rfl | rfl | rfl | rfl | rfl
        · exact Or.inl (Or.inl (Or.inl (Or.inl hcs)))
        · exact Or.inl (Or.inl (Or.inl (Or.inr hcs)))
        · exact Or.inl (Or.inl (Or.inr hcs))
        · exact Or.inl (Or.inr hcs)
        · exact Or.inr hcs

    | none =>
      rw [hm] at h
      have hrest := ih h
      simp only [Bool.or_eq_true] at hrest ⊢
      rw [List.map_cons]
      rcases hrest with ((((h1 | h1) | h1) | h1) | h1) <;>
        simp [containsSub_cons _ _ _ h1]

theorem ne_of_take_two (s t : String) (a b : Char) (h2 : s.data.take 2 = [a, b])
    (hne : ¬ t.data.take 2 = [a, b]) : s ≠ t := fun h => hne (h ▸ h2)

theorem metadata_msgs_ne_fallback (rd : RepoData) :
    "The owner of this repository is **" ++ rd.owner_login ++ "**." ≠ metadataFallback ∧
    "It has **" ++ toString rd.stargazers_count ++ "** stars." ≠ metadataFallback ∧
    "It has **" ++ toString rd.forks_count ++ "** forks." ≠ metadataFallback ∧
    "The repository is under the **" ++
      (match rd.license with | some l => l | none => "N/A") ++ "** license." ≠ metadataFallback := by
  refine ⟨ne_of_take_two _ _ 'T' 'h' ?_ (by decide), ne_of_take_two _ _ 'I' 't' ?_ (by decide),
    ne_of_take_two _ _ 'I' 't' ?_ (by decide), ne_of_take_two _ _ 'T' 'h' ?_ (by decide)⟩ <;>
    · rw [String.data_append, String.data_append]
      rfl

/-- C10.  Whenever a message satisfies the get_metadata trigger pattern,
the handler answers with one of the four metadata responses — owner/author
first, then stars, then forks, then license — and never with its final
fallback text. -/
theorem get_metadata_never_fallback (rd : RepoData) (msg : String) (caps : List String)
    (h : patGetMetadata msg = some caps) :
    handleGetMetadata rd msg ≠ metadataFallback ∧
    (handleGetMetadata rd msg = "The owner of this repository is **" ++ rd.owner_login ++ "**." ∨
     handleGetMetadata rd msg = "It has **" ++ toString rd.stargazers_count ++ "** stars." ∨
     handleGetMetadata rd msg = "It has **" ++ toString rd.forks_count ++ "** forks." ∨
     handleGetMetadata rd msg = "The repository is under the **" ++
       (match rd.license with | some l => l | none => "N/A") ++ "** license.") ∧
    ((containsStr msg "owner" || containsStr msg "author") = true →
      handleGetMetadata rd msg = "The owner of this repository is **" ++ rd.owner_login ++ "**.") ∧
    ((containsStr msg "owner" || containsStr msg "author") = false →
      containsStr msg "stars" = true →
      handleGetMetadata rd msg = "It has **" ++ toString rd.stargazers_count ++ "** stars.") := by
  have hdis := metaAt_scan_aux msg.data caps h
  have hmsgs := metadata_msgs_ne_fallback rd
  cases h1 : (containsStr msg "owner" || containsStr msg "author") with
  | true =>
    have heq : handleGetMetadata rd msg =
        "The owner of this repository is **" ++ rd.owner_login ++ "**." := by
      simp only [handleGetMetadata, h1, if_true]
    exact ⟨fun hh => hmsgs.1 (heq.symm.trans hh), Or.inl heq, fun _ => heq,
      fun hfalse => absurd hfalse (by decide)⟩
  | false =>
    have h1o : containsStr msg "owner" = false := by
      cases ho : containsStr msg "owner" <;> simp [ho] at h1 ⊢
    have h1a : containsStr msg "author" = false := by
      cases ha : containsStr msg "author" <;> simp [ha] at h1 ⊢
    cases h2 : containsStr msg "stars" with
    | true =>
      have heq : handleGetMetadata rd msg =
          "It has **" ++ toString rd.stargazers_count ++ "** stars." := by
        simp only [handleGetMetadata, h1, h2, if_true, Bool.false_eq_true, if_false]
      exact ⟨fun hh => hmsgs.2.1 (heq.symm.trans hh), Or.inr (Or.inl heq),
        fun habs => absurd habs (by decide), fun _ _ => heq⟩
    | false =>
      cases h3 : containsStr msg "forks" with
      | true =>
        have heq : handleGetMetadata rd msg =
            "It has **" ++ toString rd.forks_count ++ "** forks." := by
          simp only [handleGetMetadata, h1, h2, h3, if_true, Bool.false_eq_true, if_false]
        exact ⟨fun hh => hmsgs.2.2.1 (heq.symm.trans hh), Or.inr (Or.inr (Or.inl heq)),
          fun habs => absurd habs (by decide), fun _ habs => absurd habs (by decide)⟩
      | false =>
        cases h4 : containsStr msg "license" with
        | true =>
          have heq : handleGetMetadata rd msg = "The repository is under the **" ++
              (match rd.license with | some l => l | none => "N/A") ++ "** license." := by
            simp only [handleGetMetadata, h1, h2, h3, h4, if_true, Bool.false_eq_true, if_false]
          exact ⟨fun hh => hmsgs.2.2.2 (heq.symm.trans hh), Or.inr (Or.inr (Or.inr heq)),
            fun habs => absurd habs (by decide), fun _ habs => absurd habs (by decide)⟩
        | false =>
          rw [show containsStr msg "owner" = containsSub "owner".data (msg.data.map Char.toLower)
            from rfl] at h1o
          simp only [show containsStr msg "author" =
            containsSub "author".data (msg.data.map Char.toLower) from rfl] at h1a
          simp only [show containsStr msg "stars" =
            containsSub "stars".data (msg.data.map Char.toLower) from rfl] at h2
          simp only [show containsStr msg "forks" =
            containsSub "forks".data (msg.data.map Char.toLower) from rfl] at h3
          simp only [show containsStr msg "license" =
            containsSub "license".data (msg.data.map Char.toLower) from rfl] at h4
          rw [h1o, h1a, h2, h3, h4] at hdis
          exact absurd hdis (by simp)

/-- Witness for C10: a concrete owner query. -/
theorem get_metadata_never_fallback_witness :
    handleGetMetadata demoRepoData "who is the owner" ≠ metadataFallback :=
  (get_metadata_never_fallback demoRepoData "who is the owner" ["owner"] rfl).1

/-! ### C7: the four list_dependencies outcomes -/

theorem renderDeps_ne_fixed (deps : List (String × Json)) :
    renderDeps deps ≠ msgNoManifest ∧ renderDeps deps ≠ msgUnreadable ∧
    renderDeps deps ≠ msgNoDeps := by
  refine ⟨ne_of_take_two _ _ 'H' 'e' ?_ (by decide), ne_of_take_two _ _ 'H' 'e' ?_ (by decide),
    ne_of_take_two _ _ 'H' 'e' ?_ (by decide)⟩ <;>
  · simp only [renderDeps, String.data_append]
    rfl

/-- C7.  `handleListDependencies` has exactly four outcomes, all of them
displayable text: the fixed no-manifest message when the locator misses;
the distinct found-but-unreadable message when the located manifest cannot
be fetched or parsed; the distinct no-dependencies message when the merged
dependency object is empty; otherwise the listing of every merged
dependency name with its version specifier.  The three fixed messages and
every listing are pairwise distinct. -/
theorem list_dependencies_four_outcomes (fetch : String → Except Unit String)
    (files : List FileEntry) (cache : Cache) :
    (findFileInStructure files "package.json" = none →
      handleListDependencies fetch files cache = (Except.ok msgNoManifest, cache)) ∧
    (∀ pj, findFileInStructure files "package.json" = some pj →
      ∀ content, (getFileContent fetch cache pj.url).1 = Except.ok content →
        (dependenciesOfContent content = Except.error () →
          (handleListDependencies fetch files cache).1 = Except.ok msgUnreadable) ∧
        (∀ deps, dependenciesOfContent content = Except.ok deps →
          (deps = [] → (handleListDependencies fetch files cache).1 = Except.ok msgNoDeps) ∧
          (deps ≠ [] →
            (handleListDependencies fetch files cache).1 = Except.ok (renderDeps deps)))) ∧
    (∀ pj, findFileInStructure files "package.json" = some pj →
      (getFileContent fetch cache pj.url).1 = Except.error () →
        (handleListDependencies fetch files cache).1 = Except.ok msgUnreadable) ∧
    ((handleListDependencies fetch files cache).1 = Except.ok msgNoManifest ∨
     (handleListDependencies fetch files cache).1 = Except.ok msgUnreadable ∨
     (handleListDependencies fetch files cache).1 = Except.ok msgNoDeps ∨
     ∃ deps, deps ≠ [] ∧
       (handleListDependencies fetch files cache).1 = Except.ok (renderDeps deps)) ∧
    (msgNoManifest ≠ msgUnreadable ∧ msgNoManifest ≠ msgNoDeps ∧ msgUnreadable ≠ msgNoDeps ∧
     ∀ deps, renderDeps deps ≠ msgNoManifest ∧ renderDeps deps ≠ msgUnreadable ∧
       renderDeps deps ≠ msgNoDeps) := by
  have hdistinct : msgNoManifest ≠ msgUnreadable ∧ msgNoManifest ≠ msgNoDeps ∧
      msgUnreadable ≠ msgNoDeps ∧ ∀ deps, renderDeps deps ≠ msgNoManifest ∧
      renderDeps deps ≠ msgUnreadable ∧ renderDeps deps ≠ msgNoDeps :=
    ⟨by decide, by decide, by decide, renderDeps_ne_fixed⟩
  cases hfind : findFileInStructure files "package.json" with
  | none =>
    have hres : handleListDependencies fetch files cache = (Except.ok msgNoManifest, cache) := by
      simp [handleListDependencies, hfind]
    refine ⟨fun _ => hres, ?_, ?_, Or.inl (by rw [hres]), hdistinct⟩
    · intro pj hpj
      exact absurd hpj (by simp)
    · intro pj hpj
      exact absurd hpj (by simp)
  | some pj =>
    rcases hget : getFileContent fetch cache pj.url with ⟨r, cache2, k⟩
    cases r with
    | ok content =>
      cases hdep : dependenciesOfContent content with
      | ok deps =>
        by_cases hnil : deps = []
        · subst hnil
          have hres : (handleListDependencies fetch files cache).1 = Except.ok msgNoDeps := by
            simp [handleListDependencies, hfind, hget, hdep]
          refine ⟨fun habs => ?_, ?_, ?_, Or.inr (Or.inr (Or.inl hres)), hdistinct⟩
          · exact absurd habs (by simp)
          · intro pj' hpj' content' hcontent'
            injection hpj' with hpj'
            subst hpj'
            rw [hget] at hcontent'
            injection hcontent' with hcontent'
            subst hcontent'
            refine ⟨fun habs => ?_, ?_⟩
            · rw [hdep] at habs
              exact absurd habs (by simp)
            · intro deps' hdep'
              rw [hdep] at hdep'
              injection hdep' with hdep'
              subst hdep'
              exact ⟨fun _ => hres, fun habs => absurd rfl habs⟩
          · intro pj' hpj' habs
            injection hpj' with hpj'
            subst hpj'
            rw [hget] at habs
            exact absurd habs (by simp)
        · have hlen : deps.length > 0 := List.length_pos.mpr hnil
          have hres : (handleListDependencies fetch files cache).1 =
              Except.ok (renderDeps deps) := by
            simp [handleListDependencies, hfind, hget, hdep, hlen]
          refine ⟨fun habs => ?_, ?_, ?_,
            Or.inr (Or.inr (Or.inr ⟨deps, hnil, hres⟩)), hdistinct⟩
          · exact absurd habs (by simp)
          · intro pj' hpj' content' hcontent'
            injection hpj' with hpj'
            subst hpj'
            rw [hget] at hcontent'
            injection hcontent' with hcontent'
            subst hcontent'
            refine ⟨fun habs => ?_, ?_⟩
            · rw [hdep] at habs
              exact absurd habs (by simp)
            · intro deps' hdep'
              rw [hdep] at hdep'
              injection hdep' with hdep'
              subst hdep'
              exact ⟨fun habs => absurd habs hnil, fun _ => hres⟩
          · intro pj' hpj' habs
            injection hpj' with hpj'
            subst hpj'
            rw [hget] at habs
            exact absurd habs (by simp)
      | error e =>
        obtain rfl : e = () := rfl
        have hres : (handleListDependencies fetch files cache).1 = Except.ok msgUnreadable := by
          simp [handleListDependencies, hfind, hget, hdep]
        refine ⟨fun habs => ?_, ?_, ?_, Or.inr (Or.inl hres), hdistinct⟩
        · exact absurd habs (by simp)
        · intro pj' hpj' content' hcontent'
          injection hpj' with hpj'
          subst hpj'
          rw [hget] at hcontent'
          injection hcontent' with hcontent'
          subst hcontent'
          refine ⟨fun _ => hres, ?_⟩
          intro deps' hdep'
          rw [hdep] at hdep'
          exact absurd hdep' (by simp)
        · exact fun pj' hpj' habs => hres
    | error e =>
      obtain rfl : e = () := rfl
      have hres : (handleListDependencies fetch files cache).1 = Except.ok msgUnreadable := by
        simp [handleListDependencies, hfind, hget]
      refine ⟨fun habs => ?_, ?_, fun _ _ _ => hres, Or.inr (Or.inl hres), hdistinct⟩
      · exact absurd habs (by simp)
      · intro pj' hpj' content' hcontent'
        injection hpj' with hpj'
        subst hpj'
        rw [hget] at hcontent'
        exact absurd hcontent' (by simp)

/-- Witness for C7: the spec scenario — a manifest with exactly one
dependency yields the one-item listing for `left-pad` at `^1.0.0`. -/
theorem list_dependencies_four_outcomes_witness :
    (handleListDependencies demoFetchDeps demoFilesDeps []).1 =
      Except.ok (renderDeps [("left-pad", Json.str "^1.0.0")]) ∧
    renderDeps [("left-pad", Json.str "^1.0.0")] =
      "Here are the dependencies from `package.json`:<ul class=\"chat-list\"><li><strong>left-pad</strong>: ^1.0.0</li></ul>" :=
  ⟨((((list_dependencies_four_outcomes demoFetchDeps demoFilesDeps []).2.1
      ⟨"package.json", "up"⟩ rfl demoManifest rfl).2
      [("left-pad", Json.str "^1.0.0")] rfl).2 (List.cons_ne_nil _ _)), rfl⟩

/-! ### C9: devDependencies override dependencies in the spread merge -/

theorem objGet_cons (e : String × Json) (t : List (String × Json)) (k : String) :
    objGet (e :: t) k = if e.1 == k then some e.2 else objGet t k := by
  by_cases h : e.1 == k <;> simp [objGet, List.find?, h]

theorem filter_map_replace_ne (acc : List (String × Json)) (k : String) (v : Json) (n : String)
    (hk : (k == n) = false) :
    ((acc.map (fun e => if e.1 == k then (k, v) else e)).filter (fun e => e.1 == n)) =
      acc.filter (fun e => e.1 == n) := by
  induction acc with
  | nil => rfl
  | cons e t ih =>
    rw [List.map_cons, List.filter_cons, List.filter_cons, ih]
    cases hek : (e.1 == k) with
    | true =>
      have he : e.1 = k := eq_of_beq hek
      simp [hek, he, hk]
    | false => simp [hek]

theorem filter_map_replace_self (acc : List (String × Json)) (k : String) (v : Json) :
    ((acc.map (fun e => if e.1 == k then (k, v) else e)).filter (fun e => e.1 == k)) =
      (acc.filter (fun e => e.1 == k)).map (fun _ => (k, v)) := by
  induction acc with
  | nil => rfl
  | cons e t ih =>
    rw [List.map_cons, List.filter_cons, List.filter_cons, ih]
    cases hek : (e.1 == k) with
    | true => simp [hek]
    | false => simp [hek]

theorem filter_objInsert (acc : List (String × Json)) (k : String) (v : Json) (n : String)
    (h : (acc.filter (fun e => e.1 == n)).length ≤ 1) :
    (objInsert acc k v).filter (fun e => e.1 == n) =
      if k == n then [(n, v)] else acc.filter (fun e => e.1 == n) := by
  by_cases hk : (k == n) = true
  · have hkn : k = n := eq_of_beq hk
    subst hkn
    rw [if_pos hk]
    by_cases hany : acc.any (fun e => e.1 == k) = true
    · rw [objInsert, if_pos hany, filter_map_replace_self]
      obtain ⟨e, hemem, hek⟩ := List.any_eq_true.mp hany
      have hmemf : e ∈ acc.filter (fun e => e.1 == k) := List.mem_filter.mpr ⟨hemem, hek⟩
      have hlen1 : (acc.filter (fun e => e.1 == k)).length = 1 :=
        le_antisymm h (List.length_pos.mpr (List.ne_nil_of_mem hmemf))
      obtain ⟨a, ha⟩ := List.length_eq_one.mp hlen1
      rw [ha]
      rfl
    · rw [objInsert, if_neg hany, List.filter_append]
      have hnil : acc.filter (fun e => e.1 == k) = [] := by
        rw [List.filter_eq_nil_iff]
        intro a hamem hab
        exact hany (List.any_eq_true.mpr ⟨a, hamem, hab⟩)
      rw [hnil]
      simp
  · rw [if_neg hk]
    have hk' : (k == n) = false := by simpa using hk
    by_cases hany : acc.any (fun e => e.1 == k) = true
    · rw [objInsert, if_pos hany, filter_map_replace_ne _ _ _ _ hk']
    · rw [objInsert, if_neg hany, List.filter_append]
      simp [List.filter, hk']

theorem filter_foldl_insert (l : List (String × Json)) (n : String) :
    ∀ acc, (acc.filter (fun e => e.1 == n)).length ≤ 1 →
      ((l.foldl (fun acc e => objInsert acc e.1 e.2) acc).filter (fun e => e.1 == n)) =
        (match objGetLast l n with
         | some v => [(n, v)]
         | none => acc.filter (fun e => e.1 == n)) := by
  induction l with
  | nil =>
    intro acc _
    rfl
  | cons e t ih =>
    intro acc h
    rw [List.foldl_cons]
    have hB := filter_objInsert acc e.1 e.2 n h
    have hlen2 : ((objInsert acc e.1 e.2).filter (fun x => x.1 == n)).length ≤ 1 := by
      rw [hB]
      by_cases hek : (e.1 == n) = true
      · rw [if_pos hek]
        simp
      · rw [if_neg hek]
        exact h
    rw [ih (objInsert acc e.1 e.2) hlen2]
    cases hl : objGetLast t n with
    | some v => simp [objGetLast, hl]
    | none =>
      rw [hB]
      cases hek : (e.1 == n) with
      | true => simp [objGetLast, hl, hek]
      | false => simp [objGetLast, hl, hek]

theorem objGetLast_append (a b : List (String × Json)) (n : String) :
    objGetLast (a ++ b) n =
      match objGetLast b n with
      | some v => some v
      | none => objGetLast a n := by
  induction a with
  | nil => cases hb : objGetLast b n <;> simp [objGetLast, hb]
  | cons e t ih =>
    rw [List.cons_append]
    rw [show objGetLast (e :: (t ++ b)) n =
      (match objGetLast (t ++ b) n with
       | some v => some v
       | none => if e.1 == n then some e.2 else none) from rfl]
    rw [ih]
    cases hb : objGetLast b n <;> cases ht : objGetLast t n <;>
      simp [objGetLast, hb, ht]

theorem objGetLast_eq_none_of_not_mem (t : List (String × Json)) (n : String)
    (h : n ∉ t.map Prod.fst) : objGetLast t n = none := by
  induction t with
  | nil => rfl
  | cons e t ih =>
    rw [List.map_cons, List.mem_cons, not_or] at h
    have he : (e.1 == n) = false := by
      rw [beq_eq_false_iff_ne]
      exact fun hh => h.1 hh.symm
    simp [objGetLast, ih h.2, he]

theorem objGetLast_eq_objGet_of_nodup (t : List (String × Json)) (n : String)
    (h : (t.map Prod.fst).Nodup) : objGetLast t n = objGet t n := by
  induction t with
  | nil => rfl
  | cons e t ih =>
    rw [List.map_cons, List.nodup_cons] at h
    rw [objGet_cons]
    cases hek : (e.1 == n) with
    | true =>
      have he : e.1 = n := eq_of_beq hek
      have hnot : n ∉ t.map Prod.fst := he ▸ h.1
      simp [objGetLast, objGetLast_eq_none_of_not_mem t n hnot, hek]
    | false =>
      rw [show objGetLast (e :: t) n =
        (match objGetLast t n with
         | some v => some v
         | none => if e.1 == n then some e.2 else none) from rfl]
      rw [ih h.2]
      cases ho : objGet t n <;> simp [ho, hek]

/-- C9.  When a package name occurs in both `dependencies` and
`devDependencies`, the spread merge `{...deps, ...devDeps}` keeps the name
exactly once and its version specifier is the one from `devDependencies`,
and the list_dependencies response is the rendering of exactly that merged
list. -/
theorem dev_overrides_runtime_dependency (d dd : List (String × Json)) (n : String)
    (v1 v2 : Json) (_hd : objGet d n = some v1) (hdd : objGet dd n = some v2)
    (_hnd : (d.map Prod.fst).Nodup) (hndd : (dd.map Prod.fst).Nodup) :
    (spreadMerge d dd).filter (fun e => e.1 == n) = [(n, v2)] ∧
    spreadMerge d dd ≠ [] ∧
    (∀ fetch files cache pj content,
      findFileInStructure files "package.json" = some pj →
      (getFileContent fetch cache pj.url).1 = Except.ok content →
      dependenciesOfContent content = Except.ok (spreadMerge d dd) →
      (handleListDependencies fetch files cache).1 =
        Except.ok (renderDeps (spreadMerge d dd))) := by
  have hfilter : (spreadMerge d dd).filter (fun e => e.1 == n) = [(n, v2)] := by
    rw [spreadMerge, filter_foldl_insert (d ++ dd) n [] (by simp), objGetLast_append,
      objGetLast_eq_objGet_of_nodup dd n hndd, hdd]
  have hne : spreadMerge d dd ≠ [] := by
    intro h0
    rw [h0] at hfilter
    exact absurd hfilter (by simp)
  refine ⟨hfilter, hne, ?_⟩
  intro fetch files cache pj content hfind hget hdep
  rcases hgc : getFileContent fetch cache pj.url with ⟨r, cache2, kk⟩
  rw [hgc] at hget
  have hr : r = Except.ok content := hget
  subst hr
  have hlen : (spreadMerge d dd).length > 0 := List.length_pos.mpr hne
  simp [handleListDependencies, hfind, hgc, hdep, hlen]

/-- Witness for C9: `lodash` pinned at `^4.0.0` in `dependencies` and at
`^5.0.0` in `devDependencies` is listed once, at `^5.0.0`. -/
theorem dev_overrides_runtime_dependency_witness :
    (spreadMerge [("lodash", Json.str "^4.0.0")] [("lodash", Json.str "^5.0.0")]).filter
      (fun e => e.1 == "lodash") = [("lodash", Json.str "^5.0.0")] ∧
    (handleListDependencies demoFetchOverride demoFilesPkg []).1 =
      Except.ok (renderDeps
        (spreadMerge [("lodash", Json.str "^4.0.0")] [("lodash", Json.str "^5.0.0")])) :=
  ⟨(dev_overrides_runtime_dependency [("lodash", Json.str "^4.0.0")]
      [("lodash", Json.str "^5.0.0")] "lodash" (Json.str "^4.0.0") (Json.str "^5.0.0")
      rfl rfl (by decide) (by decide)).1,
   (dev_overrides_runtime_dependency [("lodash", Json.str "^4.0.0")]
      [("lodash", Json.str "^5.0.0")] "lodash" (Json.str "^4.0.0") (Json.str "^5.0.0")
      rfl rfl (by decide) (by decide)).2.2 demoFetchOverride demoFilesPkg []
      ⟨"package.json", "up"⟩ demoManifestOverride rfl rfl rfl⟩

/-! ### C8 and C1: the explain_code scan

The heuristic regex is tested both against whole file contents (`s` flag:
matches may span lines) and against single lines.  The lemmas below show a
single-line match is also a whole-content match, so the loop answers on the
first file with an individually matching line. -/

theorem drop_append_of_le (n : Nat) :
    ∀ (s t : List Char), n ≤ s.length → (s ++ t).drop n = s.drop n ++ t := by
  induction n with
  | zero => simp
  | succ m ih =>
    intro s t h
    cases s with
    | nil => simp at h
    | cons c cs =>
      rw [List.cons_append, List.drop_succ_cons, List.drop_succ_cons]
      exact ih cs t (Nat.le_of_succ_le_succ h)

theorem litThen_mono (lit : List Char) (p : List Char → Bool)
    (hp : ∀ s t, p s = true → p (s ++ t) = true) :
    ∀ s t, litThen lit p s = true → litThen lit p (s ++ t) = true := by
  intro s t h
  rw [litThen, Bool.and_eq_true] at h
  obtain ⟨h1, h2⟩ := h
  have hpre : lit <+: s := List.isPrefixOf_iff_prefix.mp h1
  rw [litThen, Bool.and_eq_true]
  constructor
  · exact List.isPrefixOf_iff_prefix.mpr (hpre.trans (s.prefix_append t))
  · rw [drop_append_of_le lit.length s t hpre.length_le]
    exact hp _ _ h2

theorem wsPlusThen_mono (p : List Char → Bool)
    (hp : ∀ s t, p s = true → p (s ++ t) = true) :
    ∀ s t, wsPlusThen p s = true → wsPlusThen p (s ++ t) = true := by
  intro s t
  induction s with
  | nil => intro h; simp [wsPlusThen] at h
  | cons c cs ih =>
    intro h
    rw [wsPlusThen, Bool.and_eq_true] at h
    obtain ⟨hws, hrest⟩ := h
    rw [List.cons_append, wsPlusThen, Bool.and_eq_true]
    refine ⟨hws, ?_⟩
    rw [Bool.or_eq_true] at hrest ⊢
    rcases hrest with h1 | h1
    · exact Or.inl (hp cs t h1)
    · exact Or.inr (ih h1)

theorem wsStarThen_of_p (p : List Char → Bool) (l : List Char) (h : p l = true) :
    wsStarThen p l = true := by
  cases l with
  | nil => exact h
  | cons c cs => simp [wsStarThen, h]

theorem wsStarThen_mono (p : List Char → Bool)
    (hp : ∀ s t, p s = true → p (s ++ t) = true) :
    ∀ s t, wsStarThen p s = true → wsStarThen p (s ++ t) = true := by
  intro s t
  induction s with
  | nil =>
    intro h
    exact wsStarThen_of_p p t (hp [] t h)
  | cons c cs ih =>
    intro h
    rw [wsStarThen, Bool.or_eq_true] at h
    rw [List.cons_append, wsStarThen, Bool.or_eq_true]
    rcases h with h1 | h1
    · exact Or.inl (hp _ t h1)
    · rw [Bool.and_eq_true] at h1
      exact Or.inr (by rw [Bool.and_eq_true]; exact ⟨h1.1, ih h1.2⟩)

theorem anyThen_of_p (p : List Char → Bool) (l : List Char) (h : p l = true) :
    anyThen p l = true := by
  cases l with
  | nil => exact h
  | cons c cs => simp [anyThen, h]

theorem anyThen_mono (p : List Char → Bool)
    (hp : ∀ s t, p s = true → p (s ++ t) = true) :
    ∀ s t, anyThen p s = true → anyThen p (s ++ t) = true := by
  intro s t
  induction s with
  | nil =>
    intro h
    exact anyThen_of_p p t (hp [] t h)
  | cons c cs ih =>
    intro h
    rw [anyThen, Bool.or_eq_true] at h
    rw [List.cons_append, anyThen, Bool.or_eq_true]
    rcases h with h1 | h1
    · exact Or.inl (hp _ t h1)
    · exact Or.inr (ih h1)

theorem arrowTail_mono : ∀ s t, arrowTail s = true → arrowTail (s ++ t) = true := by
  rw [arrowTail]
  exact wsStarThen_mono _ (litThen_mono _ _ (wsStarThen_mono _ (litThen_mono _ _
    (anyThen_mono _ (litThen_mono _ _ (wsStarThen_mono _ (litThen_mono _ _
      (fun _ _ _ => rfl))))))))

theorem declAt_mono (name : List Char) :
    ∀ s t, declAt name s = true → declAt name (s ++ t) = true := by
  intro s t h
  rw [declAt, Bool.or_eq_true, Bool.or_eq_true] at h
  rw [declAt, Bool.or_eq_true, Bool.or_eq_true]
  have htrivial : ∀ (s t : List Char), (fun (_ : List Char) => true) s = true →
      (fun (_ : List Char) => true) (s ++ t) = true := fun _ _ _ => rfl
  rcases h with (h1 | h1) | h1
  · exact Or.inl (Or.inl (litThen_mono _ _
      (wsPlusThen_mono _ (litThen_mono _ _ htrivial)) s t h1))
  · exact Or.inl (Or.inr (litThen_mono _ _
      (wsPlusThen_mono _ (litThen_mono _ _ arrowTail_mono)) s t h1))
  · exact Or.inr (litThen_mono _ _
      (wsPlusThen_mono _ (litThen_mono _ _ arrowTail_mono)) s t h1)

theorem regexTestAux_of_declAt (name l : List Char) (h : declAt name l = true) :
    regexTestAux name l = true := by
  cases l with
  | nil => exact h
  | cons c cs => simp [regexTestAux, h]

theorem regexTestAux_append_right (name : List Char) :
    ∀ s t, regexTestAux name s = true → regexTestAux name (s ++ t) = true := by
  intro s t
  induction s with
  | nil =>
    intro h
    exact regexTestAux_of_declAt name t (declAt_mono name [] t h)
  | cons c cs ih =>
    intro h
    rw [regexTestAux, Bool.or_eq_true] at h
    rw [List.cons_append, regexTestAux, Bool.or_eq_true]
    rcases h with h1 | h1
    · exact Or.inl (declAt_mono name (c :: cs) t h1)
    · exact Or.inr (ih h1)

theorem regexTestAux_append_left (name : List Char) :
    ∀ pre l, regexTestAux name l = true → regexTestAux name (pre ++ l) = true := by
  intro pre l h
  induction pre with
  | nil => exact h
  | cons c cs ih =>
    rw [List.cons_append,
      show regexTestAux name (c :: (cs ++ l)) =
        (declAt name (c :: (cs ++ l)) || regexTestAux name (cs ++ l)) from rfl,
      Bool.or_eq_true]
    exact Or.inr ih

theorem splitLines_ne_nil (l : List Char) : splitLines l ≠ [] := by
  cases l with
  | nil => simp [splitLines]
  | cons c rest =>
    by_cases hc : c = '\n'
    · simp [splitLines, hc]
    · simp only [splitLines, hc, if_false]
      cases h : splitLines rest <;> simp

theorem joinLines_splitLines (l : List Char) : joinLines (splitLines l) = l := by
  induction l with
  | nil => rfl
  | cons c rest ih =>
    obtain ⟨x, ls, hxl⟩ : ∃ x ls, splitLines rest = x :: ls := by
      cases h : splitLines rest with
      | nil => exact absurd h (splitLines_ne_nil rest)
      | cons x ls => exact ⟨x, ls, rfl⟩
    by_cases hc : c = '\n'
    · subst hc
      rw [show splitLines ('\n' :: rest) = [] :: splitLines rest from by simp [splitLines]]
      rw [hxl, show joinLines ([] :: x :: ls) = '\n' :: joinLines (x :: ls) from rfl]
      rw [← hxl, ih]
    · rw [show splitLines (c :: rest) =
        (match splitLines rest with
         | l :: ls => (c :: l) :: ls
         | [] => [[c]]) from by simp [splitLines, hc]]
      rw [hxl]
      cases ls with
      | nil =>
        rw [show joinLines [c :: x] = c :: x from rfl]
        rw [hxl] at ih
        rw [show joinLines [x] = x from rfl] at ih
        rw [ih]
      | cons y ls2 =>
        rw [show joinLines ((c :: x) :: y :: ls2) = (c :: x) ++ '\n' :: joinLines (y :: ls2)
          from rfl]
        rw [hxl] at ih
        rw [show joinLines (x :: y :: ls2) = x ++ '\n' :: joinLines (y :: ls2) from rfl] at ih
        rw [List.cons_append, ih]

theorem mem_joinLines_decomp (l : List Char) (ls : List (List Char)) (h : l ∈ ls) :
    ∃ pre post, joinLines ls = pre ++ (l ++ post) := by
  induction ls with
  | nil => exact absurd h (List.not_mem_nil l)
  | cons x t ih =>
    rcases List.mem_cons.mp h with rfl | hmem
    · cases t with
      | nil => exact ⟨[], [], by simp [joinLines]⟩
      | cons y t2 =>
        exact ⟨[], '\n' :: joinLines (y :: t2),
          by rw [show joinLines (l :: y :: t2) = l ++ '\n' :: joinLines (y :: t2) from rfl]; simp⟩
    · obtain ⟨pre, post, hdec⟩ := ih hmem
      cases t with
      | nil => exact absurd hmem (List.not_mem_nil l)
      | cons y t2 =>
        refine ⟨(x ++ ['\n']) ++ pre, post, ?_⟩
        rw [show joinLines (x :: y :: t2) = x ++ '\n' :: joinLines (y :: t2) from rfl, hdec]
        simp

theorem regexTest_of_line (name line content : List Char)
    (hmem : line ∈ splitLines content) (h : regexTestAux name line = true) :
    regexTestAux name content = true := by
  obtain ⟨pre, post, hdec⟩ := mem_joinLines_decomp line (splitLines content) hmem
  rw [joinLines_splitLines] at hdec
  rw [hdec]
  exact regexTestAux_append_left name pre _ (regexTestAux_append_right name line post h)

theorem findIdxL_eq_some_iff {α : Type} (p : α → Bool) (l : List α) (i : Nat) :
    findIdxL p l = some i ↔
      ∃ a, l.get? i = some a ∧ p a = true ∧
        ∀ j, j < i → ∀ b, l.get? j = some b → p b = false := by
  induction l generalizing i with
  | nil => simp [findIdxL]
  | cons c t ih =>
    cases hc : p c with
    | true =>
      rw [findIdxL, if_pos hc]
      constructor
      · intro h
        injection h with h
        subst h
        exact ⟨c, rfl, hc, fun j hj => absurd hj (Nat.not_lt_zero j)⟩
      · rintro ⟨a, hget, hpa, hprev⟩
        cases i with
        | zero => rfl
        | succ k =>
          have := hprev 0 (Nat.succ_pos k) c List.get?_cons_zero
          rw [hc] at this
          exact absurd this (by simp)
    | false =>
      rw [findIdxL, if_neg (by simp [hc])]
      constructor
      · intro h
        rw [Option.map_eq_some'] at h
        obtain ⟨k, hk, hki⟩ := h
        obtain ⟨a, hget, hpa, hprev⟩ := (ih k).mp hk
        subst hki
        refine ⟨a, by simpa using hget, hpa, ?_⟩
        intro j hj b hb
        cases j with
        | zero =>
          rw [List.get?_cons_zero] at hb
          cases hb
          exact hc
        | succ m =>
          exact hprev m (Nat.lt_of_succ_lt_succ hj) b (by simpa using hb)
      · rintro ⟨a, hget, hpa, hprev⟩
        cases i with
        | zero =>
          rw [List.get?_cons_zero] at hget
          cases hget
          rw [hc] at hpa
          exact absurd hpa (by simp)
        | succ k =>
          rw [Option.map_eq_some']
          refine ⟨k, (ih k).mpr ⟨a, by simpa using hget, hpa, ?_⟩, rfl⟩
          intro j hj b hb
          exact hprev (j + 1) (Nat.succ_lt_succ hj) b (by simpa using hb)

theorem findIdxL_isSome_exists {α : Type} (p : α → Bool) (l : List α)
    (h : (findIdxL p l).isSome = true) : ∃ a ∈ l, p a = true := by
  rw [Option.isSome_iff_exists] at h
  obtain ⟨i, hi⟩ := h
  obtain ⟨a, hget, hpa, _⟩ := (findIdxL_eq_some_iff p l i).mp hi
  exact ⟨a, List.get?_mem hget, hpa⟩

theorem functionRegexTest_of_hasDeclLine (name content : String)
    (h : hasDeclLine name content = true) : functionRegexTest name content = true := by
  rw [hasDeclLine] at h
  obtain ⟨line, hmem, hline⟩ := findIdxL_isSome_exists _ _ h
  exact regexTest_of_line name.data line content.data hmem hline

theorem lookupCache_append_one (cache : Cache) (u w x v : String)
    (h : lookupCache (cache ++ [(u, w)]) x = some v) :
    lookupCache cache x = some v ∨ (x = u ∧ v = w) := by
  induction cache with
  | nil =>
    rw [List.nil_append, lookupCache_cons] at h
    by_cases hu : ((u, w).1 == x) = true
    · rw [if_pos hu] at h
      injection h with h
      exact Or.inr ⟨(eq_of_beq hu).symm, h.symm⟩
    · rw [if_neg hu] at h
      exact absurd h (by simp [lookupCache])
  | cons e t ih =>
    rw [List.cons_append, lookupCache_cons] at h
    rw [lookupCache_cons]
    by_cases he : (e.1 == x) = true
    · rw [if_pos he] at h
      rw [if_pos he]
      exact Or.inl h
    · rw [if_neg he] at h
      rw [if_neg he]
      exact ih h

theorem getFileContent_consistent (fetch : String → Except Unit String) (cont : String → String)
    (cache : Cache) (url : String) (hfetch : ∀ u, fetch u = Except.ok (cont u))
    (hc : ∀ u v, lookupCache cache u = some v → v = cont u) :
    (getFileContent fetch cache url).1 = Except.ok (cont url) ∧
    (∀ u v, lookupCache (getFileContent fetch cache url).2.1 u = some v → v = cont u) := by
  cases hl : lookupCache cache url with
  | some v =>
    have hv := hc url v hl
    subst hv
    constructor
    · simp [getFileContent, hl]
    · simp only [getFileContent, hl]
      exact hc
  | none =>
    constructor
    · simp [getFileContent, hl, hfetch url]
    · simp only [getFileContent, hl, hfetch url]
      intro u v hu
      rcases lookupCache_append_one cache url (cont url) u v hu with h1 | ⟨rfl, rfl⟩
      · exact hc u v h1
      · rfl

theorem explainLoop_find (fetch : String → Except Unit String) (cont : String → String)
    (hl : String → String) (name : String)
    (hfetch : ∀ u, fetch u = Except.ok (cont u)) :
    ∀ files cache, (∀ u v, lookupCache cache u = some v → v = cont u) →
      (explainLoop fetch hl name files cache).1 =
        (match files.find? (fun f => hasDeclLine name (cont f.url)) with
         | some f => Except.ok (renderExplain hl name f (snippet15 name (cont f.url)))
         | none => Except.ok (notFoundExplain name)) := by
  intro files
  induction files with
  | nil =>
    intro cache _
    rfl
  | cons f rest ih =>
    intro cache hc
    obtain ⟨hres, hcons⟩ := getFileContent_consistent fetch cont cache f.url hfetch hc
    rcases hgc : getFileContent fetch cache f.url with ⟨r, cache2, kk⟩
    rw [hgc] at hres hcons
    have hr : r = Except.ok (cont f.url) := hres
    subst hr
    cases hline : firstDeclLine name (cont f.url) with
    | some i =>
      have hhead : hasDeclLine name (cont f.url) = true := by
        simp [hasDeclLine, hline]
      have htest : functionRegexTest name (cont f.url) = true :=
        functionRegexTest_of_hasDeclLine name _ hhead
      have hfind : List.find? (fun g => hasDeclLine name (cont g.url)) (f :: rest) = some f := by
        rw [List.find?_cons]
        simp [hhead]
      rw [hfind]
      simp [explainLoop, hgc, htest, hline, snippet15]
    | none =>
      have hhead : hasDeclLine name (cont f.url) = false := by
        simp [hasDeclLine, hline]
      have hfind : List.find? (fun g => hasDeclLine name (cont g.url)) (f :: rest) =
          List.find? (fun g => hasDeclLine name (cont g.url)) rest := by
        rw [List.find?_cons]
        simp [hhead]
      rw [hfind]
      cases htest : functionRegexTest name (cont f.url) with
      | true =>
        rw [show (explainLoop fetch hl name (f :: rest) cache).1 =
          (explainLoop fetch hl name rest cache2).1 from by
            simp [explainLoop, hgc, htest, hline]]
        exact ih cache2 hcons
      | false =>
        rw [show (explainLoop fetch hl name (f :: rest) cache).1 =
          (explainLoop fetch hl name rest cache2).1 from by
            simp [explainLoop, hgc, htest]]
        exact ih cache2 hcons

/-- C8 (amended).  Under a total fetch oracle, `handleExplainCode`
filters the listing to `.js` files and answers from the first filtered file
that contains a single line matching the heuristic: the response embeds the
snippet of (up to) 15 lines starting at that file's first matching line,
together with the view-full-file affordance for that file; if no filtered
file has such a line — even if some file's content matches the heuristic
only across a line boundary — every filtered file is tried and the fixed
not-found message is returned. -/
theorem explain_code_first_matching_line (fetch : String → Except Unit String)
    (cont : String → String) (hl : String → String) (name : String)
    (files : List FileEntry) (cache : Cache)
    (hfetch : ∀ u, fetch u = Except.ok (cont u))
    (hcache : ∀ u v, lookupCache cache u = some v → v = cont u) :
    (handleExplainCode fetch hl files cache name).1 =
      (match (files.filter isJsFile).find?
          (fun f => hasDeclLine name (cont f.url)) with
       | some f => Except.ok (renderExplain hl name f (snippet15 name (cont f.url)))
       | none => Except.ok (notFoundExplain name)) ∧
    (∀ content i, firstDeclLine name content = some i ↔
      ∃ line, (splitLines content.data).get? i = some line ∧
        regexTestAux name.data line = true ∧
        ∀ j, j < i → ∀ l2, (splitLines content.data).get? j = some l2 →
          regexTestAux name.data l2 = false) ∧
    (∀ content i, firstDeclLine name content = some i →
      snippet15 name content =
        String.mk (joinLines (((splitLines content.data).drop i).take 15))) := by
  refine ⟨?_, ?_, ?_⟩
  · rw [handleExplainCode]
    exact explainLoop_find fetch cont hl name hfetch _ cache hcache
  · intro content i
    exact findIdxL_eq_some_iff _ _ i
  · intro content i h
    simp only [snippet15, h]
    rfl

/-- Counterexample for C8 as stated: the only script file's content matches
the heuristic (`function` and the identifier split across a newline), yet
the handler returns the not-found message instead of a snippet from that
file. -/
theorem explain_code_content_match_skipped :
    functionRegexTest "foo" (demoContSplit "u1") = true ∧
    demoFilesSplit.filter isJsFile = demoFilesSplit ∧
    (handleExplainCode demoFetchSplit hlId demoFilesSplit [] "foo").1 =
      Except.ok (notFoundExplain "foo") :=
  ⟨rfl, rfl, rfl⟩

/-- Witness for the amended C8: the second script file declares `foo` on
its second line and supplies the snippet. -/
theorem explain_code_first_matching_line_witness :
    (handleExplainCode demoFetchExplain hlId demoFilesExplain [] "foo").1 =
      Except.ok (renderExplain hlId "foo" ⟨"k.js", "uk"⟩
        (snippet15 "foo" (demoContExplain "uk"))) ∧
    snippet15 "foo" (demoContExplain "uk") = "function foo() \x7b return 1; \x7d\ny\nz" :=
  ⟨Eq.trans ((explain_code_first_matching_line demoFetchExplain demoContExplain hlId "foo"
      demoFilesExplain [] (fun _ => rfl) (fun _ _ h => nomatch h)).1) rfl, rfl⟩

/-- C1 (amended).  `handleListDependencies` recovers every failure —
including FetchFailure — into displayable text, but `handleExplainCode`
does not: when the first script file's content is not cached and its fetch
fails, the error propagates out of the handler instead of becoming a
message. -/
theorem fetch_failure_handling (fetch : String → Except Unit String) (hl : String → String) :
    (∀ files cache, ∃ s, (handleListDependencies fetch files cache).1 = Except.ok s) ∧
    (∀ files cache name f rest,
      files.filter isJsFile = f :: rest →
      lookupCache cache f.url = none →
      fetch f.url = Except.error () →
      handleExplainCode fetch hl files cache name = (Except.error (), cache)) := by
  constructor
  · intro files cache
    cases hfind : findFileInStructure files "package.json" with
    | none => exact ⟨msgNoManifest, by simp [handleListDependencies, hfind]⟩
    | some pj =>
      rcases hgc : getFileContent fetch cache pj.url with ⟨r, cache2, k⟩
      cases r with
      | error e =>
        obtain rfl : e = () := rfl
        exact ⟨msgUnreadable, by simp [handleListDependencies, hfind, hgc]⟩
      | ok content =>
        cases hdep : dependenciesOfContent content with
        | error e =>
          exact ⟨msgUnreadable, by simp [handleListDependencies, hfind, hgc, hdep]⟩
        | ok deps =>
          by_cases hlen : deps.length > 0
          · exact ⟨renderDeps deps, by simp [handleListDependencies, hfind, hgc, hdep, hlen]⟩
          · exact ⟨msgNoDeps, by simp [handleListDependencies, hfind, hgc, hdep, hlen]⟩
  · intro files cache name f rest hfilter hmiss hfail
    rw [handleExplainCode, hfilter]
    simp [explainLoop, getFileContent, hmiss, hfail]

/-- Counterexample for C1 as stated: a failing per-file fetch inside
explain_code makes the handler produce an error, not displayable text. -/
theorem fetch_failure_not_recovered_cex :
    (handleExplainCode demoFetchFail hlId demoFilesSplit [] "foo").1 = Except.error () := rfl

/-- Witness for the amended C1. -/
theorem fetch_failure_handling_witness :
    (∃ s, (handleListDependencies demoFetchFail demoFilesPkg []).1 = Except.ok s) ∧
    handleExplainCode demoFetchFail hlId demoFilesSplit [] "foo" = (Except.error (), []) :=
  ⟨(fetch_failure_handling demoFetchFail hlId).1 demoFilesPkg [],
   (fetch_failure_handling demoFetchFail hlId).2 demoFilesSplit [] "foo" ⟨"a.js", "u1"⟩ []
     rfl rfl rfl⟩

end RepoAnalyzer
